import Mathlib

/-!
Verification of the KMP pattern-matching core of `kmp_parallel.py`.

The two algorithmic functions of the source, `create_kmp_table` (the LPS /
failure table builder) and `kmp_search` (the KMP scanner), are embedded as
fuel-indexed structurally recursive Lean functions.  Every indexing
operation of the Python code is modelled by a checked access (`l[i]?`);
an access outside the bounds of the list, like a raised `IndexError`,
makes the whole run return `none`.  Running out of fuel also returns
`none`; the fuel given at the top level (`2 * length + 1`) is proved
sufficient, so `none` results exactly model Python runs that raise.
Genome and pattern strings are `List Char`; the shared result list that
the workers append to is an accumulator argument.
-/

/-- Embedding of `create_kmp_table`'s `while i < len(pattern)` loop.
The numpy array `kmp_table` is the list `table` (updated in place with
`List.set`, reads are checked), `length` and `i` are the two cursors of
the source.  One unit of fuel is one iteration of the loop. -/
def createKmpTableAux (p : List Char) : Nat → List Nat → Nat → Nat → Option (List Nat)
  | 0, _, _, _ => none
  | fuel+1, table, length, i =>
    if i < p.length then
      match p[i]?, p[length]? with
      | some pi, some pl =>
        if pi = pl then
          createKmpTableAux p fuel (table.set i (length + 1)) (length + 1) (i + 1)
        else
          if length ≠ 0 then
            match table[length - 1]? with
            | some t => createKmpTableAux p fuel table t i
            | none => none
          else
            createKmpTableAux p fuel (table.set i 0) length (i + 1)
      | _, _ => none
    else
      some table

/-- Embedding of `create_kmp_table`: the table starts as
`np.zeros(len(pattern))`, `length = 0`, `i = 1`. -/
def createKmpTable (p : List Char) : Option (List Nat) :=
  createKmpTableAux p (2 * p.length + 1) (List.replicate p.length 0) 0 1

/-- Embedding of `kmp_search`'s `while i < n` loop over the genome.
Each iteration reads `pattern[j]` and `genome[i]` (checked), advances both
cursors on a character match, emits `(pattern, i - j)` when `j == m`
(resetting `j` through the table), and otherwise performs the
`elif i < n and pattern[j] != genome[i]` fallback of the source. -/
def kmpSearchAux (g p : List Char) (table : List Nat) :
    Nat → Nat → Nat → List (List Char × Nat) → Option (List (List Char × Nat))
  | 0, _, _, _ => none
  | fuel+1, i, j, results =>
    if i < g.length then
      match p[j]?, g[i]? with
      | some pj, some gi =>
        let i' := if pj = gi then i + 1 else i
        let j' := if pj = gi then j + 1 else j
        if j' = p.length then
          match table[j' - 1]? with
          | some t => kmpSearchAux g p table fuel i' t (results ++ [(p, i' - j')])
          | none => none
        else
          if i' < g.length then
            match p[j']?, g[i']? with
            | some pj', some gi' =>
              if pj' ≠ gi' then
                if j' ≠ 0 then
                  match table[j' - 1]? with
                  | some t => kmpSearchAux g p table fuel i' t results
                  | none => none
                else
                  kmpSearchAux g p table fuel (i' + 1) j' results
              else
                kmpSearchAux g p table fuel i' j' results
            | _, _ => none
          else
            kmpSearchAux g p table fuel i' j' results
      | _, _ => none
    else
      some results

/-- Embedding of `kmp_search`: it builds its own KMP table
(`kmp_table = create_kmp_table(pattern)`) and scans the genome starting
from `i = 0`, `j = 0` with an empty result list. -/
def kmpSearch (genome pattern : List Char) : Option (List (List Char × Nat)) :=
  match createKmpTable pattern with
  | some table => kmpSearchAux genome pattern table (2 * genome.length + 1) 0 0 []
  | none => none

/-- Sequential model of the dispatch portion of `main`: one unit of work
per pattern (`jobs = [(genome, seq, lock, results) for seq in sequences]`,
`pool.map(kmp_search, jobs)`), each unit appending its matches to the
shared `results` list.  The nondeterministic interleaving of the pool is
serialized in pattern order; an exception inside any unit (a `none` run)
propagates, as `pool.map` re-raises it in the caller. -/
def dispatchJobs (genome : List Char) :
    List (List Char) → List (List Char × Nat) → Option (List (List Char × Nat))
  | [], results => some results
  | seq :: rest, results =>
    match kmpSearch genome seq with
    | some r => dispatchJobs genome rest (results ++ r)
    | none => none

/-- The dispatch of `main`, starting from the empty shared result list. -/
def mainDispatch (genome : List Char) (sequences : List (List Char)) :
    Option (List (List Char × Nat)) :=
  dispatchJobs genome sequences []

/-- The pattern `p` occurs in `g` starting at position `s`
(`genome[s : s + len(p)] == p`). -/
abbrev occursAt (g p : List Char) (s : Nat) : Prop :=
  s + p.length ≤ g.length ∧ (g.drop s).take p.length = p

/-- Position `e` is the end index of an occurrence of `p` in `g`: the
occurrence spans `[e - len(p), e)`, i.e. `genome[e - len(p) : e] == p`. -/
abbrev endsAt (g p : List Char) (e : Nat) : Prop :=
  p.length ≤ e ∧ e ≤ g.length ∧ (g.drop (e - p.length)).take p.length = p

/-- A partial match of length `k` of `p` ends at position `i` of `g`: the
last `k` genome characters before `i` equal the first `k` pattern
characters. -/
abbrev partEnd (g p : List Char) (i k : Nat) : Prop :=
  k ≤ i ∧ i ≤ g.length ∧ (g.drop (i - k)).take k = p.take k

/-- Length of the longest proper prefix of `p.take i` that is also a
suffix of `p.take i` (the mathematical value the LPS table entry
`table[i-1]` must hold). -/
def lpsAt (p : List Char) (i : Nat) : Nat :=
  Nat.findGreatest (fun k => (p.drop (i - k)).take k = p.take k) (i - 1)

lemma sliceEq_iff (g p : List Char) (a k : Nat) (ha : a + k ≤ g.length) :
    (g.drop a).take k = p.take k ↔ k ≤ p.length ∧ ∀ t, t < k → g[a + t]? = p[t]? := by
  constructor
  · intro h
    have hlen : ((g.drop a).take k).length = k := by
      rw [List.length_take, List.length_drop]
      exact Nat.min_eq_left (by omega)
    have hl := congrArg List.length h
    rw [hlen, List.length_take] at hl
    have hkp : k ≤ p.length := by
      rcases Nat.le_total k p.length with h' | h'
      · exact h'
      · rw [Nat.min_eq_right h'] at hl; omega
    refine ⟨hkp, fun t ht => ?_⟩
    have he := congrArg (fun l => l[t]?) h
    simp only [List.getElem?_take, List.getElem?_drop, if_pos ht] at he
    exact he
  · rintro ⟨hkp, h⟩
    apply List.ext_getElem?
    intro t
    by_cases ht : t < k
    · simp only [List.getElem?_take, List.getElem?_drop, if_pos ht]
      exact h t ht
    · have l1 : ((g.drop a).take k)[t]? = none := by
        apply List.getElem?_eq_none
        rw [List.length_take, List.length_drop]
        omega
      have l2 : (p.take k)[t]? = none := by
        apply List.getElem?_eq_none
        rw [List.length_take]
        omega
      rw [l1, l2]

lemma partEnd_iff {g p : List Char} {i k : Nat} :
    partEnd g p i k ↔
      k ≤ i ∧ i ≤ g.length ∧ k ≤ p.length ∧ ∀ t, t < k → g[i - k + t]? = p[t]? := by
  constructor
  · rintro ⟨h1, h2, h3⟩
    have h4 := (sliceEq_iff g p (i - k) k (by omega)).mp h3
    exact ⟨h1, h2, h4.1, h4.2⟩
  · rintro ⟨h1, h2, h3, h4⟩
    exact ⟨h1, h2, (sliceEq_iff g p (i - k) k (by omega)).mpr ⟨h3, h4⟩⟩

lemma partEnd_zero (g p : List Char) (i : Nat) (h : i ≤ g.length) : partEnd g p i 0 :=
  partEnd_iff.mpr ⟨Nat.zero_le _, h, Nat.zero_le _, fun t ht => absurd ht (by omega)⟩

lemma partEnd_extend {g p : List Char} {i k : Nat} (h : partEnd g p i k)
    (hk : k < p.length) (hi : i < g.length) (hc : p[k]? = g[i]?) :
    partEnd g p (i + 1) (k + 1) := by
  rw [partEnd_iff] at h ⊢
  obtain ⟨h1, h2, h3, h4⟩ := h
  refine ⟨by omega, by omega, by omega, fun t ht => ?_⟩
  by_cases htk : t < k
  · have he := h4 t htk
    have e : i + 1 - (k + 1) + t = i - k + t := by omega
    rwa [e]
  · have e : i + 1 - (k + 1) + t = i := by omega
    have e2 : t = k := by omega
    rw [e, e2, ← hc]

lemma partEnd_split {g p : List Char} {i k : Nat} (h : partEnd g p (i + 1) (k + 1)) :
    partEnd g p i k ∧ g[i]? = p[k]? := by
  rw [partEnd_iff] at h
  obtain ⟨h1, h2, h3, h4⟩ := h
  constructor
  · rw [partEnd_iff]
    refine ⟨by omega, by omega, by omega, fun t ht => ?_⟩
    have he := h4 t (by omega)
    have e : i + 1 - (k + 1) + t = i - k + t := by omega
    rwa [e] at he
  · have he := h4 k (by omega)
    have e : i + 1 - (k + 1) + k = i := by omega
    rwa [e] at he

lemma partEnd_compose {g p : List Char} {i j t : Nat} (hj : partEnd g p i j)
    (ht : partEnd p p j t) : partEnd g p i t := by
  rw [partEnd_iff] at hj ht ⊢
  obtain ⟨hj1, hj2, hj3, hj4⟩ := hj
  obtain ⟨ht1, ht2, ht3, ht4⟩ := ht
  refine ⟨by omega, hj2, by omega, fun u hu => ?_⟩
  have e1 := hj4 (j - t + u) (by omega)
  have e2 := ht4 u hu
  have e : i - j + (j - t + u) = i - t + u := by omega
  rw [e] at e1
  rw [e1, e2]

lemma partEnd_restrict {g p : List Char} {i k j : Nat} (hk : partEnd g p i k)
    (hj : partEnd g p i j) (hkj : k ≤ j) : partEnd p p j k := by
  rw [partEnd_iff] at hk hj ⊢
  obtain ⟨hk1, hk2, hk3, hk4⟩ := hk
  obtain ⟨hj1, hj2, hj3, hj4⟩ := hj
  refine ⟨hkj, hj3, hk3, fun u hu => ?_⟩
  have e1 := hj4 (j - k + u) (by omega)
  have e2 := hk4 u hu
  have e : i - j + (j - k + u) = i - k + u := by omega
  rw [e] at e1
  rw [← e1, e2]

lemma lpsAt_le (p : List Char) (i : Nat) : lpsAt p i ≤ i - 1 :=
  Nat.findGreatest_le _

lemma lpsAt_partEnd (p : List Char) (i : Nat) (hi : i ≤ p.length) :
    partEnd p p i (lpsAt p i) := by
  have hP : (p.drop (i - lpsAt p i)).take (lpsAt p i) = p.take (lpsAt p i) :=
    @Nat.findGreatest_spec 0 (fun k => (p.drop (i - k)).take k = p.take k) _ (i - 1)
      (Nat.zero_le _) rfl
  exact ⟨by have := lpsAt_le p i; omega, hi, hP⟩

lemma lpsAt_max {p : List Char} {i k : Nat} (hk : k < i)
    (h : (p.drop (i - k)).take k = p.take k) : k ≤ lpsAt p i :=
  Nat.le_findGreatest (by omega) h

lemma lpsAt_lt (p : List Char) (i : Nat) (hi : 1 ≤ i) : lpsAt p i < i := by
  have := lpsAt_le p i
  omega

lemma setRead_eq {l : List Nat} {i : Nat} (a : Nat) (h : i < l.length) :
    (l.set i a)[i]? = some a := by
  simp [List.getElem?_set, h]

lemma setRead_ne {l : List Nat} {i j : Nat} (a : Nat) (h : i ≠ j) :
    (l.set i a)[j]? = l[j]? := by
  simp [List.getElem?_set, h]

lemma occursAt_iff_partEnd {g p : List Char} {s : Nat} :
    occursAt g p s ↔ partEnd g p (s + p.length) p.length := by
  constructor
  · rintro ⟨h1, h2⟩
    refine ⟨by omega, h1, ?_⟩
    have e : s + p.length - p.length = s := by omega
    rw [e, List.take_length]
    exact h2
  · rintro ⟨h1, h2, h3⟩
    have e : s + p.length - p.length = s := by omega
    rw [e, List.take_length] at h3
    exact ⟨h2, h3⟩

lemma step_max {g p : List Char} {i j B : Nat}
    (hfail : ∀ k, j < k → k < B → partEnd g p i k → p[k]? ≠ g[i]?) :
    ∀ k, k ≤ B → partEnd g p (i + 1) k → k ≤ j + 1 := by
  intro k hkB hk
  by_contra hgt
  push_neg at hgt
  obtain ⟨k', rfl⟩ : ∃ k', k = k' + 1 := ⟨k - 1, by omega⟩
  obtain ⟨hk', hchar⟩ := partEnd_split hk
  exact hfail k' (by omega) (by omega) hk' hchar.symm

lemma step_max_mismatch {g p : List Char} {i j B : Nat}
    (hfail : ∀ k, j < k → k < B → partEnd g p i k → p[k]? ≠ g[i]?)
    (hc : p[j]? ≠ g[i]?) :
    ∀ k, k ≤ B → partEnd g p (i + 1) k → k ≤ j := by
  intro k hkB hk
  by_contra hgt
  push_neg at hgt
  obtain ⟨k', rfl⟩ : ∃ k', k = k' + 1 := ⟨k - 1, by omega⟩
  obtain ⟨hk', hchar⟩ := partEnd_split hk
  rcases Nat.lt_or_ge j k' with h' | h'
  · exact hfail k' h' (by omega) hk' hchar.symm
  · have e : k' = j := by omega
    rw [e] at hchar
    exact hc hchar.symm

lemma fall_preserve {g p : List Char} {i j B : Nat}
    (hpe : partEnd g p i j)
    (hfail : ∀ k, j < k → k < B → partEnd g p i k → p[k]? ≠ g[i]?)
    (hc : p[j]? ≠ g[i]?) (hj0 : 1 ≤ j) (hjm : j ≤ p.length) :
    partEnd g p i (lpsAt p j) ∧
      (∀ k, lpsAt p j < k → k < B → partEnd g p i k → p[k]? ≠ g[i]?) ∧
      lpsAt p j < j := by
  have hlt : lpsAt p j < j := lpsAt_lt p j hj0
  refine ⟨partEnd_compose hpe (lpsAt_partEnd p j hjm), ?_, hlt⟩
  intro k hkt hkB hk
  rcases lt_trichotomy k j with h' | h' | h'
  · exfalso
    have hb := partEnd_restrict hk hpe (Nat.le_of_lt h')
    have := lpsAt_max h' hb.2.2
    omega
  · rw [h']
    exact hc
  · exact hfail k h' hkB hk

lemma createKmpTableAux_spec (p : List Char) :
    ∀ fuel table length i,
      table.length = p.length →
      1 ≤ i → i ≤ p.length → length < i →
      partEnd p p i length →
      (∀ k, length < k → k < i → partEnd p p i k → p[k]? ≠ p[i]?) →
      (∀ k, k < i → table[k]? = some (lpsAt p (k + 1))) →
      2 * (p.length - i) + length + 1 ≤ fuel →
      ∃ t, createKmpTableAux p fuel table length i = some t ∧
        t.length = p.length ∧ ∀ k, k < p.length → t[k]? = some (lpsAt p (k + 1)) := by
  intro fuel
  induction fuel with
  | zero => intro table length i _ _ _ _ _ _ _ hfuel; omega
  | succ fuel ih =>
    intro table length i htl h1i him hli hpe hfail htab hfuel
    by_cases hi : i < p.length
    · have hlm : length < p.length := by omega
      have hpi := List.getElem?_eq_getElem hi
      have hpl := List.getElem?_eq_getElem hlm
      by_cases hc : p[i] = p[length]
      · have hext : partEnd p p (i + 1) (length + 1) :=
          partEnd_extend hpe hlm hi (by rw [hpi, hpl, hc])
        have hmax : ∀ k, k ≤ i → partEnd p p (i + 1) k → k ≤ length + 1 :=
          step_max hfail
        have hlps : lpsAt p (i + 1) = length + 1 := by
          have hub : lpsAt p (i + 1) ≤ length + 1 :=
            hmax _ (by have := lpsAt_le p (i + 1); omega)
              (lpsAt_partEnd p (i + 1) (by omega))
          have hlb : length + 1 ≤ lpsAt p (i + 1) := lpsAt_max (by omega) hext.2.2
          omega
        have hfail' : ∀ k, length + 1 < k → k < i + 1 → partEnd p p (i + 1) k →
            p[k]? ≠ p[i + 1]? := by
          intro k hk1 hk2 hk3
          exfalso
          have := hmax k (by omega) hk3
          omega
        have htab' : ∀ k, k < i + 1 →
            (table.set i (length + 1))[k]? = some (lpsAt p (k + 1)) := by
          intro k hk
          by_cases hki : k = i
          · rw [hki, setRead_eq _ (by omega), hlps]
          · rw [setRead_ne _ (Ne.symm hki)]
            exact htab k (by omega)
        have hres := ih (table.set i (length + 1)) (length + 1) (i + 1)
          (by rw [List.length_set]; exact htl) (by omega) (by omega) (by omega)
          hext hfail' htab' (by omega)
        simpa only [createKmpTableAux, if_pos hi, hpi, hpl, if_pos hc] using hres
      · have hcne : p[length]? ≠ p[i]? := by
          rw [hpi, hpl]
          intro he
          exact hc (Option.some.inj he).symm
        by_cases hl0 : length = 0
        · subst hl0
          have hmax0 : ∀ k, k ≤ i → partEnd p p (i + 1) k → k ≤ 0 :=
            step_max_mismatch hfail hcne
          have hlps0 : lpsAt p (i + 1) = 0 := by
            have := hmax0 _ (by have := lpsAt_le p (i + 1); omega)
              (lpsAt_partEnd p (i + 1) (by omega))
            omega
          have hfail0 : ∀ k, 0 < k → k < i + 1 → partEnd p p (i + 1) k →
              p[k]? ≠ p[i + 1]? := by
            intro k hk1 hk2 hk3
            exfalso
            have := hmax0 k (by omega) hk3
            omega
          have htab0 : ∀ k, k < i + 1 →
              (table.set i 0)[k]? = some (lpsAt p (k + 1)) := by
            intro k hk
            by_cases hki : k = i
            · rw [hki, setRead_eq _ (by omega), hlps0]
            · rw [setRead_ne _ (Ne.symm hki)]
              exact htab k (by omega)
          have hres := ih (table.set i 0) 0 (i + 1)
            (by rw [List.length_set]; exact htl) (by omega) (by omega) (by omega)
            (partEnd_zero p p (i + 1) (by omega))
            hfail0 htab0 (by omega)
          have hgoal : createKmpTableAux p (fuel + 1) table 0 i =
              createKmpTableAux p fuel (table.set i 0) 0 (i + 1) := by
            simp only [createKmpTableAux, if_pos hi, hpi, hpl, if_neg hc]
            rw [if_neg (fun h => h rfl)]
          rw [hgoal]
          exact hres
        · have hfall := fall_preserve hpe hfail hcne (by omega) (by omega)
          obtain ⟨hpe', hfail', hlt⟩ := hfall
          have e1 : length - 1 + 1 = length := by omega
          have htr : table[length - 1]? = some (lpsAt p length) := by
            have := htab (length - 1) (by omega)
            rwa [e1] at this
          have hres := ih table (lpsAt p length) i htl h1i him (by omega)
            hpe' hfail' htab (by omega)
          have hgoal : createKmpTableAux p (fuel + 1) table length i =
              createKmpTableAux p fuel table (lpsAt p length) i := by
            simp only [createKmpTableAux, if_pos hi, hpi, hpl, if_neg hc, if_pos hl0, htr]
          rw [hgoal]
          exact hres
    · refine ⟨table, ?_, htl, fun k hk => htab k (by omega)⟩
      simp only [createKmpTableAux, if_neg hi]

lemma createKmpTable_spec (p : List Char) (hp : p ≠ []) :
    ∃ t, createKmpTable p = some t ∧ t.length = p.length ∧
      ∀ k, k < p.length → t[k]? = some (lpsAt p (k + 1)) := by
  have hm : 1 ≤ p.length := List.length_pos.mpr hp
  have htab1 : ∀ k, k < 1 →
      (List.replicate p.length 0)[k]? = some (lpsAt p (k + 1)) := by
    intro k hk
    have hk0 : k = 0 := by omega
    subst hk0
    rw [List.getElem?_replicate, if_pos (by omega : 0 < p.length)]
    rfl
  have h := createKmpTableAux_spec p (2 * p.length + 1) (List.replicate p.length 0) 0 1
    (by rw [List.length_replicate]) (le_refl 1) hm (by omega)
    (partEnd_zero p p 1 hm)
    (fun k hk1 hk2 _ => absurd hk1 (by omega))
    htab1 (by omega)
  exact h

lemma kmpSearchAux_spec (g p : List Char) (table : List Nat)
    (hm : 1 ≤ p.length)
    (htab : ∀ k, k < p.length → table[k]? = some (lpsAt p (k + 1))) :
    ∀ fuel i j acc,
      j ≤ i → i ≤ g.length → j < p.length →
      partEnd g p i j →
      (∀ k, j < k → k < p.length → partEnd g p i k → p[k]? ≠ g[i]?) →
      (∀ pr : List Char × Nat, pr ∈ acc ↔
        pr.1 = p ∧ pr.2 + p.length ≤ i ∧ occursAt g p pr.2) →
      2 * (g.length - i) + j + 1 ≤ fuel →
      ∃ res, kmpSearchAux g p table fuel i j acc = some res ∧
        ∀ pr : List Char × Nat, pr ∈ res ↔ pr.1 = p ∧ occursAt g p pr.2 := by
  intro fuel
  induction fuel with
  | zero => intro i j acc _ _ _ _ _ _ hfuel; omega
  | succ fuel ih =>
    intro i j acc hji hin hjm hpe hfail hacc hfuel
    by_cases hi : i < g.length
    case neg =>
      have hie : i = g.length := by omega
      refine ⟨acc, by simp only [kmpSearchAux, if_neg hi], fun pr => ?_⟩
      rw [hacc pr]
      constructor
      · rintro ⟨h1, h2, h3⟩; exact ⟨h1, h3⟩
      · rintro ⟨h1, h3⟩
        exact ⟨h1, by rw [hie]; exact h3.1, h3⟩
    case pos =>
      have hpj := List.getElem?_eq_getElem hjm
      have hgi := List.getElem?_eq_getElem hi
      by_cases hc : p[j] = g[i]
      · have hcq : p[j]? = g[i]? := by rw [hpj, hgi, hc]
        have hext : partEnd g p (i + 1) (j + 1) := partEnd_extend hpe hjm hi hcq
        have hmax : ∀ k, k ≤ p.length → partEnd g p (i + 1) k → k ≤ j + 1 :=
          step_max hfail
        by_cases hjm' : j + 1 = p.length
        · have htr : table[j + 1 - 1]? = some (lpsAt p p.length) := by
            have hx := htab (p.length - 1) (by omega)
            have e : p.length - 1 + 1 = p.length := by omega
            rw [e] at hx
            have e2 : j + 1 - 1 = p.length - 1 := by omega
            rw [e2]
            exact hx
          have hmlei : p.length ≤ i + 1 := by
            have := hext.1
            omega
          have hocc : occursAt g p (i + 1 - p.length) := by
            rw [occursAt_iff_partEnd]
            have e : i + 1 - p.length + p.length = i + 1 := by omega
            rw [e]
            exact hjm' ▸ hext
          have htlt : lpsAt p p.length < p.length := lpsAt_lt p p.length hm
          have hpet : partEnd g p (i + 1) (lpsAt p p.length) :=
            partEnd_compose (hjm' ▸ hext) (lpsAt_partEnd p p.length (le_refl _))
          have hfailt : ∀ k, lpsAt p p.length < k → k < p.length →
              partEnd g p (i + 1) k → p[k]? ≠ g[i + 1]? := by
            intro k hk1 hk2 hk3
            exfalso
            have hb := partEnd_restrict hk3 (hjm' ▸ hext) (by omega)
            have := lpsAt_max hk2 hb.2.2
            omega
          have hacc' : ∀ pr : List Char × Nat, pr ∈ acc ++ [(p, i + 1 - (j + 1))] ↔
              pr.1 = p ∧ pr.2 + p.length ≤ i + 1 ∧ occursAt g p pr.2 := by
            intro pr
            rw [List.mem_append, List.mem_singleton, hacc pr]
            constructor
            · rintro (⟨h1, h2, h3⟩ | hpr)
              · exact ⟨h1, by omega, h3⟩
              · rw [hpr]
                refine ⟨rfl, ?_, ?_⟩
                · show i + 1 - (j + 1) + p.length ≤ i + 1
                  omega
                · show occursAt g p (i + 1 - (j + 1))
                  rw [hjm']
                  exact hocc
            · rintro ⟨h1, h2, h3⟩
              by_cases hle : pr.2 + p.length ≤ i
              · exact Or.inl ⟨h1, hle, h3⟩
              · right
                have h4 : pr.2 = i + 1 - (j + 1) := by omega
                exact Prod.ext_iff.mpr ⟨h1, h4⟩
          have hres := ih (i + 1) (lpsAt p p.length) (acc ++ [(p, i + 1 - (j + 1))])
            (by omega) (by omega) htlt hpet hfailt hacc' (by omega)
          obtain ⟨res, hrun, hmem⟩ := hres
          refine ⟨res, ?_, hmem⟩
          have hgoal : kmpSearchAux g p table (fuel + 1) i j acc =
              kmpSearchAux g p table fuel (i + 1) (lpsAt p p.length)
                (acc ++ [(p, i + 1 - (j + 1))]) := by
            simp only [kmpSearchAux, if_pos hi, hpj, hgi, if_pos hc, if_pos hjm', htr]
          rw [hgoal, hrun]
        · have hjm2 : j + 1 < p.length := by omega
          have hfail' : ∀ k, j + 1 < k → k < p.length → partEnd g p (i + 1) k →
              p[k]? ≠ g[i + 1]? := by
            intro k hk1 hk2 hk3
            exfalso
            have := hmax k (by omega) hk3
            omega
          have hacc1 : ∀ pr : List Char × Nat, pr ∈ acc ↔
              pr.1 = p ∧ pr.2 + p.length ≤ i + 1 ∧ occursAt g p pr.2 := by
            intro pr
            rw [hacc pr]
            constructor
            · rintro ⟨h1, h2, h3⟩; exact ⟨h1, by omega, h3⟩
            · rintro ⟨h1, h2, h3⟩
              refine ⟨h1, ?_, h3⟩
              by_contra hgt
              have he : pr.2 + p.length = i + 1 := by omega
              have hoc := occursAt_iff_partEnd.mp h3
              rw [he] at hoc
              have := hmax p.length (le_refl _) hoc
              omega
          by_cases hin' : i + 1 < g.length
          · have hpj' := List.getElem?_eq_getElem hjm2
            have hgi' := List.getElem?_eq_getElem hin'
            by_cases hc' : p[j + 1] = g[i + 1]
            · have hres := ih (i + 1) (j + 1) acc (by omega) (by omega) hjm2
                hext hfail' hacc1 (by omega)
              obtain ⟨res, hrun, hmem⟩ := hres
              refine ⟨res, ?_, hmem⟩
              have hgoal : kmpSearchAux g p table (fuel + 1) i j acc =
                  kmpSearchAux g p table fuel (i + 1) (j + 1) acc := by
                simp only [kmpSearchAux, if_pos hi, hpj, hgi, if_pos hc, if_neg hjm',
                  if_pos hin', hpj', hgi']
                rw [if_neg (fun hne => hne hc')]
              rw [hgoal, hrun]
            · have hcq' : p[j + 1]? ≠ g[i + 1]? := by
                rw [hpj', hgi']
                intro he
                exact hc' (Option.some.inj he)
              have hfall := fall_preserve hext hfail' hcq' (by omega) (by omega)
              obtain ⟨hpe2, hfail2, hlt2⟩ := hfall
              have htr2 : table[j + 1 - 1]? = some (lpsAt p (j + 1)) := by
                have hx := htab j (by omega)
                have e : j + 1 - 1 = j := by omega
                rw [e]
                exact hx
              have hres := ih (i + 1) (lpsAt p (j + 1)) acc (by omega) (by omega)
                (by omega) hpe2 hfail2 hacc1 (by omega)
              obtain ⟨res, hrun, hmem⟩ := hres
              refine ⟨res, ?_, hmem⟩
              have hgoal : kmpSearchAux g p table (fuel + 1) i j acc =
                  kmpSearchAux g p table fuel (i + 1) (lpsAt p (j + 1)) acc := by
                simp only [kmpSearchAux, if_pos hi, hpj, hgi, if_pos hc, if_neg hjm',
                  if_pos hin', hpj', hgi', htr2]
                rw [if_pos hc', if_pos (show j + 1 ≠ 0 from by omega)]
              rw [hgoal, hrun]
          · have hres := ih (i + 1) (j + 1) acc (by omega) (by omega) hjm2
              hext hfail' hacc1 (by omega)
            obtain ⟨res, hrun, hmem⟩ := hres
            refine ⟨res, ?_, hmem⟩
            have hgoal : kmpSearchAux g p table (fuel + 1) i j acc =
                kmpSearchAux g p table fuel (i + 1) (j + 1) acc := by
              simp only [kmpSearchAux, if_pos hi, hpj, hgi, if_pos hc, if_neg hjm',
                if_neg hin']
            rw [hgoal, hrun]
      · have hcq : p[j]? ≠ g[i]? := by
          rw [hpj, hgi]
          intro he
          exact hc (Option.some.inj he)
        by_cases hj0 : j = 0
        · subst hj0
          have hmaxm : ∀ k, k ≤ p.length → partEnd g p (i + 1) k → k ≤ 0 :=
            step_max_mismatch hfail hcq
          have hfail0 : ∀ k, 0 < k → k < p.length → partEnd g p (i + 1) k →
              p[k]? ≠ g[i + 1]? := by
            intro k hk1 hk2 hk3
            exfalso
            have := hmaxm k (by omega) hk3
            omega
          have hacc1 : ∀ pr : List Char × Nat, pr ∈ acc ↔
              pr.1 = p ∧ pr.2 + p.length ≤ i + 1 ∧ occursAt g p pr.2 := by
            intro pr
            rw [hacc pr]
            constructor
            · rintro ⟨h1, h2, h3⟩; exact ⟨h1, by omega, h3⟩
            · rintro ⟨h1, h2, h3⟩
              refine ⟨h1, ?_, h3⟩
              by_contra hgt
              have he : pr.2 + p.length = i + 1 := by omega
              have hoc := occursAt_iff_partEnd.mp h3
              rw [he] at hoc
              have := hmaxm p.length (le_refl _) hoc
              omega
          have hres := ih (i + 1) 0 acc (by omega) (by omega) (by omega)
            (partEnd_zero g p (i + 1) (by omega)) hfail0 hacc1 (by omega)
          obtain ⟨res, hrun, hmem⟩ := hres
          refine ⟨res, ?_, hmem⟩
          have hgoal : kmpSearchAux g p table (fuel + 1) i 0 acc =
              kmpSearchAux g p table fuel (i + 1) 0 acc := by
            simp only [kmpSearchAux, if_pos hi, hpj, hgi, if_neg hc]
            rw [if_neg (show ¬(0 = p.length) from by omega), if_pos hc,
              if_neg (fun h => h rfl)]
          rw [hgoal, hrun]
        · have hfall := fall_preserve hpe hfail hcq (by omega) (by omega)
          obtain ⟨hpe2, hfail2, hlt2⟩ := hfall
          have htr2 : table[j - 1]? = some (lpsAt p j) := by
            have hx := htab (j - 1) (by omega)
            have e : j - 1 + 1 = j := by omega
            rw [e] at hx
            exact hx
          have hres := ih i (lpsAt p j) acc (by omega) (by omega) (by omega)
            hpe2 hfail2 hacc (by omega)
          obtain ⟨res, hrun, hmem⟩ := hres
          refine ⟨res, ?_, hmem⟩
          have hgoal : kmpSearchAux g p table (fuel + 1) i j acc =
              kmpSearchAux g p table fuel i (lpsAt p j) acc := by
            simp only [kmpSearchAux, if_pos hi, hpj, hgi, if_neg hc, htr2]
            rw [if_neg (show ¬(j = p.length) from by omega), if_pos hc, if_pos hj0]
          rw [hgoal, hrun]

lemma kmpSearch_spec (g p : List Char) (hp : p ≠ []) :
    ∃ res, kmpSearch g p = some res ∧
      ∀ pr : List Char × Nat, pr ∈ res ↔ pr.1 = p ∧ occursAt g p pr.2 := by
  have hm : 1 ≤ p.length := List.length_pos.mpr hp
  obtain ⟨t, hct, htl, htab⟩ := createKmpTable_spec p hp
  have h := kmpSearchAux_spec g p t hm htab (2 * g.length + 1) 0 0 []
    (le_refl 0) (Nat.zero_le _) (by omega)
    (partEnd_zero g p 0 (Nat.zero_le _))
    (fun k hk1 hk2 hk3 => absurd (partEnd_iff.mp hk3).1 (by omega))
    (fun pr => by
      constructor
      · intro hmem
        exact absurd hmem (List.not_mem_nil pr)
      · rintro ⟨h1, h2, h3⟩
        exact absurd h2 (by omega))
    (by omega)
  obtain ⟨res, hrun, hmem⟩ := h
  refine ⟨res, ?_, hmem⟩
  simp only [kmpSearch, hct]
  exact hrun

lemma kmpSearch_nil_pattern {g : List Char} (hg : g ≠ []) : kmpSearch g [] = none := by
  have hg0 : 0 < g.length := List.length_pos.mpr hg
  have hct : createKmpTable ([] : List Char) = some [] := rfl
  simp only [kmpSearch, hct]
  simp only [kmpSearchAux, if_pos hg0]
  rfl

lemma dispatchJobs_isSome (g : List Char) :
    ∀ seqs acc, (∀ s ∈ seqs, s ≠ []) → ∃ r, dispatchJobs g seqs acc = some r := by
  intro seqs
  induction seqs with
  | nil => intro acc _; exact ⟨acc, rfl⟩
  | cons s rest ih =>
    intro acc hall
    obtain ⟨res, hrun, _⟩ := kmpSearch_spec g s (hall s (List.mem_cons_self s rest))
    obtain ⟨r, hr⟩ := ih (acc ++ res) (fun x hx => hall x (List.mem_cons_of_mem s hx))
    refine ⟨r, ?_⟩
    simp only [dispatchJobs, hrun]
    exact hr

lemma dispatchJobs_none (g : List Char) (hg : g ≠ []) :
    ∀ seqs acc, ([] : List Char) ∈ seqs → dispatchJobs g seqs acc = none := by
  intro seqs
  induction seqs with
  | nil => intro acc h; exact absurd h (List.not_mem_nil _)
  | cons s rest ih =>
    intro acc hmem
    by_cases hs : s = []
    · subst hs
      simp only [dispatchJobs, kmpSearch_nil_pattern hg]
    · have hrest : ([] : List Char) ∈ rest := by
        rcases List.mem_cons.mp hmem with he | hr
        · exact absurd he.symm hs
        · exact hr
      cases hks : kmpSearch g s with
      | none => simp only [dispatchJobs, hks]
      | some r =>
        simp only [dispatchJobs, hks]
        exact ih (acc ++ r) hrest

/-- Claim C1 (corrected): at genome `"AB"`, pattern `"B"`, the single
occurrence spans `[1, 2)`, so its end index is `2`; the scanner instead
reports `1`, which is not an end index of any occurrence.  The claim that
each reported position is the end index is therefore false. -/
theorem C1_counterexample :
    (kmpSearch ("AB".toList) ("B".toList)).getD [] = [(("B".toList), 1)] ∧
      ¬ endsAt ("AB".toList) ("B".toList) 1 := by
  decide

/-- Claim C1 (amended): for every genome and every non-empty pattern, each
match reported by the KMP scanner carries the START index of the
occurrence — the position of its first character — so the occurrence spans
`[reported_position, reported_position + len(pattern))`; the scanner
reports `i - j`, not the end index `i`. -/
theorem C1_start_index (g p : List Char) (hp : p ≠ []) :
    ∃ res, kmpSearch g p = some res ∧
      ∀ pr ∈ res, pr.1 = p ∧ endsAt g p (pr.2 + p.length) := by
  obtain ⟨res, hrun, hmem⟩ := kmpSearch_spec g p hp
  refine ⟨res, hrun, fun pr hpr => ?_⟩
  obtain ⟨h1, h2⟩ := (hmem pr).mp hpr
  refine ⟨h1, Nat.le_add_left _ _, h2.1, ?_⟩
  have e : pr.2 + p.length - p.length = pr.2 := by omega
  rw [e]
  exact h2.2

/-- Witness for C1: the amended theorem applied to genome `"AB"` and the
non-empty pattern `"B"`. -/
theorem C1_witness :
    ("B".toList ≠ []) ∧
      (∃ res, kmpSearch ("AB".toList) ("B".toList) = some res ∧
        ∀ pr ∈ res, pr.1 = "B".toList ∧
          endsAt ("AB".toList) ("B".toList) (pr.2 + "B".toList.length)) :=
  ⟨by decide, C1_start_index ("AB".toList) ("B".toList) (by decide)⟩

/-- Claim C2 (corrected): at genome `"AB"`, pattern `"AB"`, the only
occurrence has end index `2`, yet `2` is not reported (the scanner reports
the start index `0`), so the reported set is not the set of end indices. -/
theorem C2_counterexample :
    (kmpSearch ("AB".toList) ("AB".toList)).getD [] = [(("AB".toList), 0)] ∧
      endsAt ("AB".toList) ("AB".toList) 2 ∧
      (("AB".toList), 2) ∉ (kmpSearch ("AB".toList) ("AB".toList)).getD [] := by
  decide

/-- Claim C2 (amended): for every genome and every non-empty pattern `P`,
the set of positions reported by the scanner is exactly the set of START
indices of occurrences: `(P, s)` is reported iff
`genome[s : s + len(P)] == P`. -/
theorem C2_start_positions (g p : List Char) (hp : p ≠ []) :
    ∃ res, kmpSearch g p = some res ∧
      ∀ s, ((p, s) ∈ res ↔
        s + p.length ≤ g.length ∧ (g.drop s).take p.length = p) := by
  obtain ⟨res, hrun, hmem⟩ := kmpSearch_spec g p hp
  refine ⟨res, hrun, fun s => ?_⟩
  constructor
  · intro h
    exact ((hmem (p, s)).mp h).2
  · intro h
    exact (hmem (p, s)).mpr ⟨rfl, h⟩

/-- Witness for C2: the amended theorem applied to genome `"AAAA"` and
pattern `"AA"`. -/
theorem C2_witness :
    ("AA".toList ≠ []) ∧
      (∃ res, kmpSearch ("AAAA".toList) ("AA".toList) = some res ∧
        ∀ s, (("AA".toList, s) ∈ res ↔
          s + "AA".toList.length ≤ "AAAA".toList.length ∧
            ("AAAA".toList.drop s).take "AA".toList.length = "AA".toList)) :=
  ⟨by decide, C2_start_positions ("AAAA".toList) ("AA".toList) (by decide)⟩

/-- Claim C3 (confirmed): for every non-empty pattern `P`, the table built
by `create_kmp_table` has `len(table) == len(P)`, `table[0] == 0`, and
`table[i] <= i` at every index. -/
theorem C3_table_invariants (p : List Char) (hp : p ≠ []) :
    ∃ t, createKmpTable p = some t ∧ t.length = p.length ∧
      t.getD 0 0 = 0 ∧ ∀ k, k < t.length → t.getD k 0 ≤ k := by
  obtain ⟨t, hct, htl, htab⟩ := createKmpTable_spec p hp
  have hm : 1 ≤ p.length := List.length_pos.mpr hp
  have hval : ∀ k, k < t.length → t.getD k 0 = lpsAt p (k + 1) := by
    intro k hk
    rw [List.getD_eq_getElem?_getD, htab k (by omega)]
    rfl
  refine ⟨t, hct, htl, ?_, ?_⟩
  · rw [hval 0 (by omega)]
    rfl
  · intro k hk
    rw [hval k hk]
    have := lpsAt_le p (k + 1)
    omega

/-- Witness for C3: the table invariants at the repository's own test
pattern `"ABABCABAB"`. -/
theorem C3_witness :
    ("ABABCABAB".toList ≠ []) ∧
      (∃ t, createKmpTable ("ABABCABAB".toList) = some t ∧
        t.length = "ABABCABAB".toList.length ∧
        t.getD 0 0 = 0 ∧ ∀ k, k < t.length → t.getD k 0 ≤ k) :=
  ⟨by decide, C3_table_invariants ("ABABCABAB".toList) (by decide)⟩

/-- Claim C4 (corrected): `create_kmp_table` applied to the empty pattern
does not fail: the run completes normally (a failing run is `none` in this
embedding, and the source has no raise at all in `create_kmp_table`). -/
theorem C4_counterexample : createKmpTable ([] : List Char) ≠ none := by
  decide

/-- Claim C4 (amended): calling the LPS builder on the empty pattern does
not raise; the `while` loop is skipped (`i = 1` is not `< 0`) and the
builder returns the zero-length table `np.zeros(0)` — the empty pattern is
processed trivially, not rejected (no `InvalidPatternError` exists in the
code). -/
theorem C4_empty_table :
    ∃ t, createKmpTable ([] : List Char) = some t ∧
      t.length = ([] : List Char).length :=
  ⟨[], by decide, rfl⟩

/-- Claim C5 (confirmed): for every non-empty pattern, scanning a genome
strictly shorter than the pattern (including the empty genome) yields the
empty match list and completes without any error: the run returns
`some []`, so the loop terminates via the `i < len(genome)` guard and no
indexing is out of bounds. -/
theorem C5_short_genome (g p : List Char) (hp : p ≠ []) (hlt : g.length < p.length) :
    kmpSearch g p = some [] := by
  obtain ⟨res, hrun, hmem⟩ := kmpSearch_spec g p hp
  have hres : res = [] := by
    rw [List.eq_nil_iff_forall_not_mem]
    intro pr hpr
    obtain ⟨h1, h2, h3⟩ := (hmem pr).mp hpr
    omega
  rw [hrun, hres]

/-- Witness for C5: both boundary scenarios of the claim — the empty
genome, and a genome shorter than the pattern. -/
theorem C5_witness :
    kmpSearch ([] : List Char) ("A".toList) = some [] ∧
      kmpSearch ("A".toList) ("ACGT".toList) = some [] :=
  ⟨C5_short_genome ([] : List Char) ("A".toList) (by decide) (by decide),
    C5_short_genome ("A".toList) ("ACGT".toList) (by decide) (by decide)⟩

/-- Claim C6 (corrected): scanning genome `"AAAA"` for pattern `"AA"`
reports three matches, but at positions `0`, `1`, `2` (start indices), not
at end indices `2`, `3`, `4`: in particular `4` is never reported. -/
theorem C6_counterexample :
    ((kmpSearch ("AAAA".toList) ("AA".toList)).getD []).map Prod.snd = [0, 1, 2] ∧
      (("AA".toList), 4) ∉ (kmpSearch ("AAAA".toList) ("AA".toList)).getD [] := by
  decide

/-- Claim C6 (amended): scanning genome `"AAAA"` for pattern `"AA"`
reports exactly three matches, at start positions `0`, `1` and `2` (all
overlapping occurrences are reported). -/
theorem C6_overlap :
    kmpSearch ("AAAA".toList) ("AA".toList) =
      some [(("AA".toList), 0), (("AA".toList), 1), (("AA".toList), 2)] := by
  decide

/-- Claim C7 (confirmed): for every non-empty pattern the LPS builder's
loop terminates (the run completes within the proved fuel bound and
returns a table rather than diverging or failing). -/
theorem C7_terminates (p : List Char) (hp : p ≠ []) :
    (createKmpTable p).isSome = true := by
  obtain ⟨t, hct, _, _⟩ := createKmpTable_spec p hp
  rw [hct]
  rfl

/-- Witness for C7: termination at the concrete pattern `"ACGT"`. -/
theorem C7_witness : (createKmpTable ("ACGT".toList)).isSome = true :=
  C7_terminates ("ACGT".toList) (by decide)

/-- Claim C8 (corrected): at genome `"A"` and pattern list `["A", ""]`,
the first pattern scans successfully (match at position 0), but the
failure on the empty pattern aborts the whole dispatch: `main`'s
`pool.map` re-raises the worker exception, no error record is produced,
and the successful matches are lost — nothing like a per-pattern error
list is returned. -/
theorem C8_counterexample :
    mainDispatch ("A".toList) [("A".toList), []] = none ∧
      kmpSearch ("A".toList) ("A".toList) = some [(("A".toList), 0)] := by
  decide

/-- Claim C8 (amended): `main` does not collect per-pattern errors: for a
non-empty genome, the dispatch produces a result exactly when every
pattern's unit of work succeeds (here: every pattern is non-empty); a
failure inside any single pattern's unit of work propagates to the caller
and aborts the whole dispatch, so no partial result and no error list is
returned. -/
theorem C8_error_propagation (g : List Char) (seqs : List (List Char)) (hg : g ≠ []) :
    (mainDispatch g seqs).isSome = true ↔ ∀ s ∈ seqs, s ≠ [] := by
  constructor
  · intro hsome s hs hse
    rw [hse] at hs
    have hnone := dispatchJobs_none g hg seqs [] hs
    rw [show mainDispatch g seqs = dispatchJobs g seqs [] from rfl, hnone] at hsome
    exact absurd hsome (by decide)
  · intro hall
    obtain ⟨r, hr⟩ := dispatchJobs_isSome g seqs [] hall
    rw [show mainDispatch g seqs = dispatchJobs g seqs [] from rfl, hr]
    rfl

/-- Witness for C8: the amended theorem applied to genome `"AG"` and the
all-non-empty pattern list `["A", "G"]`. -/
theorem C8_witness :
    (mainDispatch ("AG".toList) [("A".toList), ("G".toList)]).isSome = true :=
  (C8_error_propagation ("AG".toList) [("A".toList), ("G".toList)] (by decide)).mpr
    (by decide)

/-- Claim C9 (confirmed): for every genome and every non-empty pattern,
every pair `(pattern, pos)` that `kmp_search` appends satisfies
`0 <= pos <= len(genome) - len(pattern)` and
`genome[pos : pos + len(pattern)] == pattern`: each reported position is
the start index of an actual occurrence. -/
theorem C9_sound (g p : List Char) (hp : p ≠ []) :
    ∃ res, kmpSearch g p = some res ∧
      ∀ pr ∈ res, pr.2 ≤ g.length - p.length ∧
        (g.drop pr.2).take p.length = p := by
  obtain ⟨res, hrun, hmem⟩ := kmpSearch_spec g p hp
  refine ⟨res, hrun, fun pr hpr => ?_⟩
  obtain ⟨h1, h2, h3⟩ := (hmem pr).mp hpr
  exact ⟨by omega, h3⟩

/-- Witness for C9: the soundness theorem at the repository's own
end-to-end test vector. -/
theorem C9_witness :
    ("ABABCABAB".toList ≠ []) ∧
      (∃ res,
        kmpSearch ("ABABDABACDABABCABAB".toList) ("ABABCABAB".toList) = some res ∧
        ∀ pr ∈ res,
          pr.2 ≤ "ABABDABACDABABCABAB".toList.length - "ABABCABAB".toList.length ∧
          ("ABABDABACDABABCABAB".toList.drop pr.2).take "ABABCABAB".toList.length =
            "ABABCABAB".toList) :=
  ⟨by decide,
    C9_sound ("ABABDABACDABABCABAB".toList) ("ABABCABAB".toList) (by decide)⟩

/-- Claim C10 (confirmed): for every genome and every non-empty pattern,
`kmp_search` never indexes out of bounds: in this embedding every read of
`pattern[j]`, `genome[i]` and `kmp_table[j - 1]` is bounds-checked and a
violation (or fuel exhaustion) would return `none`; the run always returns
`some`, so `0 <= j <= len(pattern)` holds throughout, `pattern[j]` is only
read with `j < len(pattern)`, `genome[i]` only with `i < len(genome)`, and
`kmp_table[j - 1]` only behind the `j != 0` / `j == len(pattern)` guards. -/
theorem C10_no_oob (g p : List Char) (hp : p ≠ []) :
    (kmpSearch g p).isSome = true := by
  obtain ⟨res, hrun, _⟩ := kmpSearch_spec g p hp
  rw [hrun]
  rfl

/-- Witness for C10: in-bounds execution at a concrete genome and
pattern. -/
theorem C10_witness :
    (kmpSearch ("ABABDABACDABABCABAB".toList) ("AB".toList)).isSome = true :=
  C10_no_oob ("ABABDABACDABABCABAB".toList) ("AB".toList) (by decide)
